import Mathlib

/-!
Shallow embedding of the conversation decoding engine of `llm-world`
(`src/sys/llm.rs`): prompt-template encoding, stop-marker detection on the
raw UTF-8 byte storage, and the batch-buffer / position-cursor state machine
of `LlamaCtx` (`reset_batch_with_prompt`, `take_a_token`, `chat`).

Native-backend effects (tokenizer, forward pass, sampler) are external to
the repository; they enter the model as explicit inputs: the tokenizer
result as an `Except` value, forward-pass success as a boolean, and the
sampled token id as a plain value.  Machine integers are modelled as `Nat`
(`usize` positions and counters stay far below `2^31`, so the `as i32`
casts in the source are value-preserving and are not re-modelled); the one
place where unsigned wrap-around matters (`tokens.len() - 1` on an empty
token list) is modelled explicitly as a panic (`Option.none`), matching
Rust's checked-arithmetic semantics for underflow.  `f32` sampler
parameters are modelled as `ℚ`: the only arithmetic performed on them in
the embedded code is `tau * 2.0`, which is exact in binary floating point.
-/

namespace LlmWorld

/-- `Role` from `src/sys/llm.rs`. -/
inductive Role where
  | System
  | User
  | Assistant
deriving DecidableEq, Repr

/-- `Role::as_ref` / `Display`: the canonical lowercase role name. -/
def Role.asStr : Role → String
  | .System => "system"
  | .User => "user"
  | .Assistant => "assistant"

/-- `Content` from `src/sys/llm.rs`. -/
structure Content where
  role : Role
  message : String
deriving DecidableEq, Repr

/-- `PromptTemplate` from `src/sys/llm.rs`. -/
structure PromptTemplate where
  header_prefix : String
  header_suffix : String
  end_of_content : String
  stops : List String
deriving DecidableEq, Repr

/-- The loop of `PromptTemplate::encode_string`: folds over the turns,
accumulating the result string and tracking `last_role` (updated to the
current turn's role on every iteration).  A separator `end_of_content` is
pushed before a turn exactly when the accumulated result is non-empty. -/
def encodeLoop (t : PromptTemplate) : List Content → String → Role → String × Role
  | [], result, last => (result, last)
  | c :: cs, result, _ =>
    let result := if result = "" then result else result ++ t.end_of_content
    let result :=
      result ++ t.header_prefix ++ c.role.asStr ++ t.header_suffix ++ c.message
    encodeLoop t cs result c.role

/-- `PromptTemplate::encode_string`: run the loop starting from the empty
string with `last_role = System`; afterwards, unless the last role is
`Assistant`, append `end_of_content` and then an empty assistant header. -/
def encode_string (t : PromptTemplate) (cs : List Content) : String :=
  let rl := encodeLoop t cs "" Role.System
  match rl.2 with
  | Role.Assistant => rl.1
  | _ => rl.1 ++ t.end_of_content ++ t.header_prefix ++ "assistant" ++ t.header_suffix

/-- The example template of the spec: prefix `<|`, suffix `|>`,
separator `\n`. -/
def exTemplate : PromptTemplate :=
  { header_prefix := "<|"
    header_suffix := "|>"
    end_of_content := "\n"
    stops := ["<|end|>"] }

/-- The second component of `encodeLoop` on a non-empty turn list is the
last turn's role, whatever the accumulator and initial `last_role` are. -/
lemma encodeLoop_last_role (t : PromptTemplate) (c : Content) :
    ∀ (cs : List Content) (r : String) (l : Role),
      (encodeLoop t (cs ++ [c]) r l).2 = c.role := by
  intro cs
  induction cs with
  | nil => intro r l; rfl
  | cons d ds ih =>
    intro r l
    simp only [List.cons_append, encodeLoop]
    exact ih _ _

/-- The string built by `encodeLoop` over a non-empty turn list ends with
the last turn's message. -/
lemma encodeLoop_ends_with_message (t : PromptTemplate) (c : Content) :
    ∀ (cs : List Content) (r : String) (l : Role),
      ∃ p, (encodeLoop t (cs ++ [c]) r l).1 = p ++ c.message := by
  intro cs
  induction cs with
  | nil => intro r l; exact ⟨_, rfl⟩
  | cons d ds ih =>
    intro r l
    simp only [List.cons_append, encodeLoop]
    exact ih _ _

/-- C4: for the template with prefix `<|`, suffix `|>`, separator `\n` and
turns `[System: s, User: hi]`, `encode_string` returns exactly
`<|system|>s\n<|user|>hi\n<|assistant|>`. -/
theorem claim_c4_encode_two_turns :
    encode_string exTemplate
        [{ role := Role.System, message := "s" }, { role := Role.User, message := "hi" }] =
      "<|system|>s\n<|user|>hi\n<|assistant|>" := by
  rfl

/-- C2 counterexample: encoding the empty conversation with the example
template yields `"\n<|assistant|>"`, not the claimed `"<|assistant|>"`:
the trailing-assistant branch of `encode_string` pushes `end_of_content`
first even when the loop body never ran. -/
theorem claim_c2_counterexample :
    encode_string exTemplate [] = "\n<|assistant|>" ∧
    encode_string exTemplate [] ≠ "<|assistant|>" := by
  exact ⟨rfl, by decide⟩

/-- C2 (amended): encoding an empty conversation yields exactly
`end_of_content ++ header_prefix ++ "assistant" ++ header_suffix` — the
separator IS emitted before the assistant header; for the example template
the result is `"\n<|assistant|>"`. -/
theorem claim_c2_empty_conversation (t : PromptTemplate) :
    encode_string t [] =
      t.end_of_content ++ t.header_prefix ++ "assistant" ++ t.header_suffix ∧
    encode_string exTemplate [] = "\n<|assistant|>" := by
  constructor
  · simp [encode_string, encodeLoop]
  · rfl

/-- C5: if the last turn's role is Assistant, `encode_string` is exactly
the loop result (it ends with the last turn's message, no trailing header);
otherwise it is the loop result followed by `end_of_content` and an empty
assistant header. -/
theorem claim_c5_trailing_header (t : PromptTemplate) (cs : List Content) (c : Content) :
    (c.role = Role.Assistant →
      encode_string t (cs ++ [c]) = (encodeLoop t (cs ++ [c]) "" Role.System).1 ∧
      ∃ p, encode_string t (cs ++ [c]) = p ++ c.message) ∧
    (c.role ≠ Role.Assistant →
      encode_string t (cs ++ [c]) =
        (encodeLoop t (cs ++ [c]) "" Role.System).1 ++ t.end_of_content ++
          t.header_prefix ++ "assistant" ++ t.header_suffix) := by
  have hlast := encodeLoop_last_role t c cs "" Role.System
  constructor
  · intro hrole
    have h1 : encode_string t (cs ++ [c]) = (encodeLoop t (cs ++ [c]) "" Role.System).1 := by
      unfold encode_string
      dsimp only
      rw [hlast, hrole]
    refine ⟨h1, ?_⟩
    obtain ⟨p, hp⟩ := encodeLoop_ends_with_message t c cs "" Role.System
    exact ⟨p, h1.trans hp⟩
  · intro hrole
    unfold encode_string
    dsimp only
    rw [hlast]
    cases hc : c.role with
    | Assistant => exact absurd hc hrole
    | System => rfl
    | User => rfl

/-- C5 witness: concrete instances of both branches. -/
theorem claim_c5_witness :
    (encode_string exTemplate [{ role := Role.Assistant, message := "ok" }] =
        (encodeLoop exTemplate [{ role := Role.Assistant, message := "ok" }] "" Role.System).1 ∧
      ∃ p, encode_string exTemplate [{ role := Role.Assistant, message := "ok" }] = p ++ "ok") ∧
    encode_string exTemplate [{ role := Role.User, message := "hi" }] =
      (encodeLoop exTemplate [{ role := Role.User, message := "hi" }] "" Role.System).1 ++
        exTemplate.end_of_content ++ exTemplate.header_prefix ++ "assistant" ++
        exTemplate.header_suffix := by
  constructor
  · exact (claim_c5_trailing_header exTemplate []
      { role := Role.Assistant, message := "ok" }).1 rfl
  · exact (claim_c5_trailing_header exTemplate []
      { role := Role.User, message := "hi" }).2 (by decide)

/-! ### Stop detection on the raw byte storage

`PromptTemplate::post_handle_content` mutates the accumulated string's raw
UTF-8 byte vector (`content.as_mut_vec()`): it compares each stop marker's
bytes against the end of the byte vector and truncates the vector.  The
byte storage is modelled as `List Nat` (byte values) and Rust's `String`
UTF-8 invariant through an explicit encoder. -/

/-- UTF-8 encoding of one Unicode scalar value, byte values as `Nat`
(the storage layout Rust's `String` guarantees for each `char`). -/
def utf8EncodeChar (c : Char) : List Nat :=
  if c.toNat < 0x80 then [c.toNat]
  else if c.toNat < 0x800 then [0xC0 + c.toNat / 0x40, 0x80 + c.toNat % 0x40]
  else if c.toNat < 0x10000 then
    [0xE0 + c.toNat / 0x1000, 0x80 + c.toNat / 0x40 % 0x40, 0x80 + c.toNat % 0x40]
  else
    [0xF0 + c.toNat / 0x40000, 0x80 + c.toNat / 0x1000 % 0x40,
      0x80 + c.toNat / 0x40 % 0x40, 0x80 + c.toNat % 0x40]

/-- UTF-8 byte storage of a character sequence. -/
def listBytes : List Char → List Nat
  | [] => []
  | c :: cs => utf8EncodeChar c ++ listBytes cs

/-- UTF-8 byte storage of a Rust `String` value. -/
def strBytes (s : String) : List Nat :=
  listBytes s.data

/-- The loop of `PromptTemplate::post_handle_content`: try each stop
marker's bytes in order against the end of the byte vector; on the first
suffix match truncate the vector to `len - stop_bs.len()` and stop with
`true`; otherwise `false` with the bytes unchanged. -/
def postHandleBytes : List (List Nat) → List Nat → List Nat × Bool
  | [], bs => (bs, false)
  | stop :: rest, bs =>
    if stop.isSuffixOf bs then (bs.take (bs.length - stop.length), true)
    else postHandleBytes rest bs

/-- `PromptTemplate::post_handle_content` on the byte storage of the
accumulated text, with the template's stop markers. -/
def post_handle_content (t : PromptTemplate) (bs : List Nat) : List Nat × Bool :=
  postHandleBytes (t.stops.map strBytes) bs

/-- If `s` is a suffix of `bs`, truncating `bs` to `bs.length - s.length`
removes exactly the trailing copy of `s`. -/
lemma take_append_of_suffix {s bs : List Nat} (h : s.isSuffixOf bs) :
    bs.take (bs.length - s.length) ++ s = bs := by
  rw [List.isSuffixOf_iff_suffix] at h
  obtain ⟨p, hp⟩ := h
  rw [← hp]
  have hl : (p ++ s).length - s.length = p.length := by simp
  rw [hl, List.take_left]

/-- A `true` result of the stop loop comes from some listed marker that is
a byte suffix, and the returned bytes are the input with exactly that
marker removed. -/
lemma postHandleBytes_true {stops : List (List Nat)} {bs bs' : List Nat}
    (h : postHandleBytes stops bs = (bs', true)) :
    ∃ s ∈ stops, s.isSuffixOf bs ∧ bs' ++ s = bs := by
  induction stops with
  | nil => simp [postHandleBytes] at h
  | cons s rest ih =>
    by_cases hs : s.isSuffixOf bs
    · rw [postHandleBytes, if_pos hs] at h
      have hb : bs' = bs.take (bs.length - s.length) := by
        have := congrArg Prod.fst h
        simpa using this.symm
      exact ⟨s, by simp, hs, by rw [hb]; exact take_append_of_suffix hs⟩
    · rw [postHandleBytes, if_neg hs] at h
      obtain ⟨s', hmem, h1, h2⟩ := ih h
      exact ⟨s', by simp [hmem], h1, h2⟩

/-- C6: stop markers are tested in stored order; the first suffix match is
removed exactly and later markers are not consulted (the tail list is
irrelevant to the result); with no suffix match the bytes are returned
unchanged with `false`.  Concretely, `"hello<|end|>"` with stop `<|end|>`
becomes `"hello"` with `true`, and `"hello"` returns `false` unchanged. -/
theorem claim_c6_stop_detection :
    (∀ (stops : List (List Nat)) (bs : List Nat),
      (∀ s ∈ stops, ¬ s.isSuffixOf bs) → postHandleBytes stops bs = (bs, false)) ∧
    (∀ (pre rest : List (List Nat)) (s bs : List Nat),
      (∀ s' ∈ pre, ¬ s'.isSuffixOf bs) → s.isSuffixOf bs →
        postHandleBytes (pre ++ s :: rest) bs = (bs.take (bs.length - s.length), true) ∧
        (postHandleBytes (pre ++ s :: rest) bs).1 ++ s = bs) ∧
    post_handle_content exTemplate (strBytes "hello<|end|>") = (strBytes "hello", true) ∧
    post_handle_content exTemplate (strBytes "hello") = (strBytes "hello", false) := by
  refine ⟨?_, ?_, by decide, by decide⟩
  · intro stops
    induction stops with
    | nil => intro bs _; rfl
    | cons s rest ih =>
      intro bs hno
      rw [postHandleBytes, if_neg (hno s (by simp))]
      exact ih bs fun s' hs' => hno s' (by simp [hs'])
  · intro pre
    induction pre with
    | nil =>
      intro rest s bs _ hs
      have he : postHandleBytes (s :: rest) bs =
          (bs.take (bs.length - s.length), true) := by
        rw [postHandleBytes, if_pos hs]
      exact ⟨he, by rw [List.nil_append, he]; exact take_append_of_suffix hs⟩
    | cons d pre ih =>
      intro rest s bs hno hs
      have hd : ¬ d.isSuffixOf bs := hno d (by simp)
      have hrec := ih rest s bs (fun s' hs' => hno s' (by simp [hs'])) hs
      constructor
      · rw [List.cons_append, postHandleBytes, if_neg hd]
        exact hrec.1
      · rw [List.cons_append, postHandleBytes, if_neg hd]
        exact hrec.2

/-- C6 witness: concrete instances of both quantified branches. -/
theorem claim_c6_witness :
    postHandleBytes [[1, 2]] [3] = ([3], false) ∧
    postHandleBytes [[9], [5]] [4, 5] = ([4], true) ∧
    (postHandleBytes [[9], [5]] [4, 5]).1 ++ [5] = [4, 5] := by
  refine ⟨claim_c6_stop_detection.1 [[1, 2]] [3] (by decide), ?_, ?_⟩
  · exact (claim_c6_stop_detection.2.1 [[9]] [] [5] [4, 5] (by decide) (by decide)).1
  · exact (claim_c6_stop_detection.2.1 [[9]] [] [5] [4, 5] (by decide) (by decide)).2

/-- A UTF-8 continuation byte: `0x80 ≤ b < 0xC0`. -/
def isCont (b : Nat) : Prop :=
  0x80 ≤ b ∧ b < 0xC0

/-- Every encoded character is a non-continuation lead byte followed by
continuation bytes only. -/
lemma utf8EncodeChar_head_tail (c : Char) :
    ∃ h t, utf8EncodeChar c = h :: t ∧ ¬ isCont h ∧ ∀ b ∈ t, isCont b := by
  unfold utf8EncodeChar
  split_ifs with h1 h2 h3
  · refine ⟨_, _, rfl, ?_, ?_⟩
    · rintro ⟨hb, -⟩
      omega
    · intro b hb
      simp at hb
  · refine ⟨_, _, rfl, ?_, ?_⟩
    · rintro ⟨-, hb⟩
      omega
    · intro b hb
      simp only [List.mem_singleton] at hb
      subst hb
      exact ⟨by omega, by omega⟩
  · refine ⟨_, _, rfl, ?_, ?_⟩
    · rintro ⟨-, hb⟩
      omega
    · intro b hb
      simp only [List.mem_cons, List.not_mem_nil, or_false] at hb
      rcases hb with hb | hb <;> subst hb <;> exact ⟨by omega, by omega⟩
  · refine ⟨_, _, rfl, ?_, ?_⟩
    · rintro ⟨-, hb⟩
      omega
    · intro b hb
      simp only [List.mem_cons, List.not_mem_nil, or_false] at hb
      rcases hb with hb | hb | hb <;> subst hb <;> exact ⟨by omega, by omega⟩

/-- Self-synchronisation of UTF-8 byte storage: if the bytes of `cs` split
as `p ++ bytes of ds`, the remaining head `p` is itself the byte storage of
some character sequence.  (The split point cannot fall inside an encoded
character, because that position holds a continuation byte while a valid
remainder must start with a lead byte.) -/
lemma listBytes_suffix_decomp :
    ∀ (cs ds : List Char) (p : List Nat),
      listBytes cs = p ++ listBytes ds → ∃ es, p = listBytes es := by
  intro cs
  induction cs with
  | nil =>
    intro ds p h
    have hp : p = [] := (List.append_eq_nil.mp h.symm).1
    exact ⟨[], hp⟩
  | cons c cs ih =>
    intro ds p h
    rw [show listBytes (c :: cs) = utf8EncodeChar c ++ listBytes cs from rfl] at h
    rcases List.append_eq_append_iff.mp h with ⟨a, ha1, ha2⟩ | ⟨b, hb1, hb2⟩
    · obtain ⟨es, hes⟩ := ih ds a ha2
      exact ⟨c :: es, by rw [ha1, hes]; rfl⟩
    · cases b with
      | nil =>
        exact ⟨[c], by simp [listBytes, hb1]⟩
      | cons bb bt =>
        cases p with
        | nil => exact ⟨[], rfl⟩
        | cons pb pt =>
          exfalso
          obtain ⟨h0, t0, henc, _, htail⟩ := utf8EncodeChar_head_tail c
          rw [henc] at hb1
          have ht0 : t0 = pt ++ bb :: bt := by
            have := hb1
            simp only [List.cons_append] at this
            exact (List.cons.injEq _ _ _ _).mp this |>.2
          have hbb_cont : isCont bb := htail bb (by rw [ht0]; simp)
          cases ds with
          | nil => simp [listBytes] at hb2
          | cons d ds' =>
            obtain ⟨h1, t1, henc1, hhead1, _⟩ := utf8EncodeChar_head_tail d
            rw [show listBytes (d :: ds') = utf8EncodeChar d ++ listBytes ds' from rfl,
              henc1] at hb2
            have hbb : h1 = bb := by
              simp only [List.cons_append] at hb2
              exact (List.cons.injEq _ _ _ _).mp hb2 |>.1
            exact hhead1 (hbb ▸ hbb_cont)

/-- C10: if the stop loop trims the byte storage of a text (result `true`),
the remaining bytes are again the UTF-8 storage of some character
sequence — the truncation point always falls on a character boundary, so
`post_handle_content` preserves UTF-8 validity. -/
theorem claim_c10_utf8_preserved (text : String) (stops : List String) (bs' : List Nat)
    (h : postHandleBytes (stops.map strBytes) (strBytes text) = (bs', true)) :
    ∃ res : List Char, bs' = listBytes res := by
  obtain ⟨s, hmem, hsuf, heq⟩ := postHandleBytes_true h
  obtain ⟨stop, hstop, hs⟩ := List.mem_map.mp hmem
  subst hs
  exact listBytes_suffix_decomp text.data stop.data bs' heq.symm

/-- C10 witness: trimming `"é<|end|>"` by the marker `<|end|>` leaves
bytes that decode as a character sequence. -/
theorem claim_c10_witness :
    ∃ res : List Char, strBytes "é" = listBytes res :=
  claim_c10_utf8_preserved "é<|end|>" ["<|end|>"] (strBytes "é") (by decide)

/-! ### The decoding session state machine

`LlamaCtx` owns a bounded batch buffer and the position cursor `n_cur`.
The native calls are modelled as: `LlamaBatch::add` fails iff the buffer
already holds its allocated capacity `C`; `LlamaContext::decode` succeeds
or fails according to a boolean backend oracle `decodeOk`, and on success
records the submitted batch (the forward-pass history since the last cache
clear); the sampler's chosen token id is an oracle input `sampled`. -/

/-- The mutable state of `LlamaCtx` relevant to the embedded code: the
batch buffer (token id, position pairs in insertion order), the position
cursor `n_cur`, and the list of batches submitted to successful forward
passes since the last cache clear. -/
structure CtxState where
  batch : List (Nat × Nat)
  n_cur : Nat
  flushed : List (List (Nat × Nat))
deriving DecidableEq, Repr

/-- `LlamaContext::decode`: on success the current batch is recorded as
one forward pass; on failure the Rust-side state is untouched. -/
def ctxDecode (decodeOk : Bool) (st : CtxState) : CtxState × Bool :=
  if decodeOk then ({ st with flushed := st.flushed ++ [st.batch] }, true)
  else (st, false)

/-- `LlamaBatch::add`: appends `(tok, n_cur)` to the buffer, failing iff
the buffer is already at its allocated capacity `C`. -/
def batchAdd (C : Nat) (st : CtxState) (tok : Nat) : CtxState × Bool :=
  if C ≤ st.batch.length then (st, false)
  else ({ st with batch := st.batch ++ [(tok, st.n_cur)] }, true)

/-- The ingestion loop of `LlamaCtx::reset_batch_with_prompt`: for each
token, `batch.add(token, n_cur)` then `n_cur += 1`; when the token is not
the last (`i == last_index`) and the buffer holds exactly `C` tokens,
decode and clear the buffer. -/
def ingestLoop (C : Nat) (decodeOk : Bool) (lastIndex : Nat) :
    Nat → List Nat → CtxState → CtxState × Except String Unit
  | _, [], st => (st, Except.ok ())
  | i, tok :: rest, st =>
    match batchAdd C st tok with
    | (st1, false) => (st1, Except.error "add")
    | (st1, true) =>
      let st2 := { st1 with n_cur := st1.n_cur + 1 }
      if i ≠ lastIndex ∧ st2.batch.length = C then
        match ctxDecode decodeOk st2 with
        | (st3, false) => (st3, Except.error "decode")
        | (st3, true) =>
          ingestLoop C decodeOk lastIndex (i + 1) rest { st3 with batch := [] }
      else ingestLoop C decodeOk lastIndex (i + 1) rest st2

/-- `LlamaCtx::reset_batch_with_prompt`: clear the KV cache and batch
buffer, reset `n_cur` to 0, tokenize the encoded prompt (`tokensRes` is
the tokenizer's result), then ingest.  `last_index = tokens.len() - 1` is
computed in unsigned arithmetic before the loop: on an empty token list
the subtraction underflows, which is a panic (`none`), not an error
value. -/
def reset_batch_with_prompt (C : Nat) (decodeOk : Bool)
    (tokensRes : Except String (List Nat)) : Option (CtxState × Except String Unit) :=
  let st0 : CtxState := { batch := [], n_cur := 0, flushed := [] }
  match tokensRes with
  | Except.error e => some (st0, Except.error e)
  | Except.ok tokens =>
    if tokens.length = 0 then none
    else some (ingestLoop C decodeOk (tokens.length - 1) 0 tokens st0)

/-- `LlamaCtx::take_a_token`: decode the pending batch, sample (`sampled`
is the backend sampler's choice), clear the buffer, add the sampled token
at `n_cur`, increment `n_cur`; `none` result signals the EOS token. -/
def take_a_token (C : Nat) (decodeOk : Bool) (sampled eos : Nat) (st : CtxState) :
    CtxState × Except String (Option Nat) :=
  match ctxDecode decodeOk st with
  | (st1, false) => (st1, Except.error "decode")
  | (st1, true) =>
    let st2 := { st1 with batch := [] }
    match batchAdd C st2 sampled with
    | (st3, false) => (st3, Except.error "add")
    | (st3, true) =>
      let st4 := { st3 with n_cur := st3.n_cur + 1 }
      if sampled = eos then (st4, Except.ok none)
      else (st4, Except.ok (some sampled))

/-- `SimpleOption` from `src/sys/llm.rs`; `f32` parameters as `ℚ`. -/
inductive SimpleOption where
  | None
  | Temp (t : ℚ)
  | TopP (p : ℚ) (min_keep : Nat)
  | TopK (k : Int) (min_keep : Nat)
  | MirostatV2 (tau eta : ℚ)
deriving DecidableEq, Repr

/-- `LlamaModelChatStream`: the per-generation stream handle carrying the
strategy and the MirostatV2 running estimate `mu`. -/
structure LlamaModelChatStream where
  simple_option : SimpleOption
  mu : ℚ
deriving DecidableEq, Repr

/-- `LlamaCtx::chat`: reset the session with the prompt, then build the
stream; `mu` starts at 0 and is overwritten with `tau * 2.0` exactly when
the strategy is `MirostatV2`. -/
def chat (C : Nat) (decodeOk : Bool) (tokensRes : Except String (List Nat))
    (simple_option : SimpleOption) :
    Option (CtxState × Except String LlamaModelChatStream) :=
  match reset_batch_with_prompt C decodeOk tokensRes with
  | none => none
  | some (st, Except.error e) => some (st, Except.error e)
  | some (st, Except.ok _) =>
    let mu : ℚ :=
      match simple_option with
      | SimpleOption.MirostatV2 tau _ => tau * 2
      | _ => 0
    some (st, Except.ok { simple_option := simple_option, mu := mu })

/-- Tokens paired with consecutive positions starting at `p`. -/
def posZip : Nat → List Nat → List (Nat × Nat)
  | _, [] => []
  | p, tok :: rest => (tok, p) :: posZip (p + 1) rest

/-- `LlamaBatch::add` on a buffer below capacity appends the entry. -/
lemma batchAdd_lt {C : Nat} {st : CtxState} (tok : Nat) (h : st.batch.length < C) :
    batchAdd C st tok =
      ((⟨st.batch ++ [(tok, st.n_cur)], st.n_cur, st.flushed⟩ : CtxState), true) := by
  rw [batchAdd, if_neg (Nat.not_le.2 h)]

/-- A healthy forward pass records the submitted batch. -/
lemma ctxDecode_true (st : CtxState) :
    ctxDecode true st =
      ((⟨st.batch, st.n_cur, st.flushed ++ [st.batch]⟩ : CtxState), true) := rfl

/-- One ingestion iteration that fills the buffer on a non-final token:
add, then flush (decode + clear). -/
lemma ingestLoop_cons_flush (C lastIndex i tok : Nat) (rest : List Nat)
    (st : CtxState) (h1 : st.batch.length < C) (h2 : i ≠ lastIndex)
    (h3 : st.batch.length + 1 = C) :
    ingestLoop C true lastIndex i (tok :: rest) st =
      ingestLoop C true lastIndex (i + 1) rest
        (⟨[], st.n_cur + 1, st.flushed ++ [st.batch ++ [(tok, st.n_cur)]]⟩ : CtxState) := by
  simp only [ingestLoop]
  rw [batchAdd_lt tok h1]
  dsimp only
  split
  · rw [ctxDecode_true]
  · next h =>
      exact absurd ⟨h2, by simpa using h3⟩ h

/-- One ingestion iteration without a flush: the token is the last one or
the buffer stays below capacity. -/
lemma ingestLoop_cons_noflush (C lastIndex i tok : Nat) (rest : List Nat)
    (st : CtxState) (h1 : st.batch.length < C)
    (h2 : ¬(i ≠ lastIndex ∧ st.batch.length + 1 = C)) :
    ingestLoop C true lastIndex i (tok :: rest) st =
      ingestLoop C true lastIndex (i + 1) rest
        (⟨st.batch ++ [(tok, st.n_cur)], st.n_cur + 1, st.flushed⟩ : CtxState) := by
  simp only [ingestLoop]
  rw [batchAdd_lt tok h1]
  dsimp only
  split
  · next h => exact absurd ⟨h.1, by simpa using h.2⟩ h2
  · rfl

/-- Master run lemma for the ingestion loop with a healthy backend: the
loop succeeds, `n_cur` advances by the number of tokens, the tokens appear
(flushed or still buffered) in order at consecutive positions starting at
the entry `n_cur`, every newly flushed batch has exactly `C` entries, and
a non-empty token list leaves a non-empty buffer. -/
lemma ingestLoop_ok (C lastIndex : Nat) :
    ∀ (toks : List Nat) (i : Nat) (st : CtxState),
      (toks ≠ [] → st.batch.length < C) →
      i + toks.length = lastIndex + 1 →
      ∃ st', ingestLoop C true lastIndex i toks st = (st', Except.ok ()) ∧
        st'.n_cur = st.n_cur + toks.length ∧
        st'.flushed.flatten ++ st'.batch =
          st.flushed.flatten ++ st.batch ++ posZip st.n_cur toks ∧
        (∀ ch ∈ st'.flushed, ch ∈ st.flushed ∨ ch.length = C) ∧
        (toks = [] → st' = st) ∧
        (toks ≠ [] → st'.batch ≠ []) := by
  intro toks
  induction toks with
  | nil =>
    intro i st _ _
    exact ⟨st, rfl, by simp, by simp [posZip], fun ch hch => Or.inl hch,
      fun _ => rfl, by simp⟩
  | cons tok rest ih =>
    intro i st hcap hidx
    have hlt : st.batch.length < C := hcap (by simp)
    have hidx' : (i + 1) + rest.length = lastIndex + 1 := by
      simp only [List.length_cons] at hidx
      omega
    by_cases hcond : i ≠ lastIndex ∧ st.batch.length + 1 = C
    · -- the added token fills the buffer and is not the last: flush
      have hrest : rest ≠ [] := by
        intro hr
        subst hr
        simp only [List.length_cons, List.length_nil] at hidx
        exact hcond.1 (by omega)
      obtain ⟨st', h1, h2, h3, h4, _, h6⟩ :=
        ih (i + 1)
          (⟨[], st.n_cur + 1, st.flushed ++ [st.batch ++ [(tok, st.n_cur)]]⟩ : CtxState)
          (fun _ => by have h3 := hcond.2; show 0 < C; omega)
          hidx'
      have hstep := ingestLoop_cons_flush C lastIndex i tok rest st hlt hcond.1 hcond.2
      refine ⟨st', hstep.trans h1, ?_, ?_, ?_, by simp, fun _ => h6 hrest⟩
      · rw [h2]
        simp only [List.length_cons]
        omega
      · rw [h3]
        simp [posZip]
      · intro ch hch
        rcases h4 ch hch with hin | hlen
        · simp only [List.mem_append, List.mem_singleton] at hin
          rcases hin with hin | hin
          · exact Or.inl hin
          · subst hin
            refine Or.inr ?_
            simp only [List.length_append, List.length_cons, List.length_nil]
            omega
        · exact Or.inr hlen
    · -- no flush: either the token is the last one or the buffer is not full
      have hcap' : rest ≠ [] → st.batch.length + 1 < C := by
        intro hrest
        have hi : i ≠ lastIndex := by
          intro he
          subst he
          simp only [List.length_cons] at hidx
          exact hrest (List.length_eq_zero.mp (by omega))
        have hne : st.batch.length + 1 ≠ C := fun hc => hcond ⟨hi, hc⟩
        omega
      obtain ⟨st', h1, h2, h3, h4, h5, h6⟩ :=
        ih (i + 1)
          (⟨st.batch ++ [(tok, st.n_cur)], st.n_cur + 1, st.flushed⟩ : CtxState)
          (fun hrest => by simpa using hcap' hrest)
          hidx'
      have hstep := ingestLoop_cons_noflush C lastIndex i tok rest st hlt hcond
      refine ⟨st', hstep.trans h1, ?_, ?_, by simpa using h4, by simp, ?_⟩
      · rw [h2]
        simp only [List.length_cons]
        omega
      · rw [h3]
        simp [posZip]
      · intro _
        rcases List.eq_nil_or_concat rest with hr | hcc
        · subst hr
          rw [h5 rfl]
          simp
        · refine h6 ?_
          obtain ⟨l, x, hx⟩ := hcc
          subst hx
          simp

/-- A successful reset: with a healthy backend, a non-empty token list and
positive capacity, `reset_batch_with_prompt` succeeds, `n_cur` ends at the
token count, the tokens sit at consecutive positions 0, 1, …, every
flushed batch holds exactly `C` entries, and the buffer is non-empty. -/
lemma reset_ok (C : Nat) (tokens : List Nat) (hC : 1 ≤ C) (hne : tokens ≠ []) :
    ∃ st, reset_batch_with_prompt C true (Except.ok tokens) = some (st, Except.ok ()) ∧
      st.n_cur = tokens.length ∧
      st.flushed.flatten ++ st.batch = posZip 0 tokens ∧
      (∀ ch ∈ st.flushed, ch.length = C) ∧
      st.batch ≠ [] := by
  have hpos : 0 < tokens.length := List.length_pos.2 hne
  obtain ⟨st', h1, h2, h3, h4, _, h6⟩ :=
    ingestLoop_ok C (tokens.length - 1) tokens 0 (⟨[], 0, []⟩ : CtxState)
      (fun _ => by show 0 < C; omega) (by omega)
  refine ⟨st', ?_, by simpa using h2, by simpa using h3, ?_, h6 hne⟩
  · show (if tokens.length = 0 then none
      else some (ingestLoop C true (tokens.length - 1) 0 tokens ⟨[], 0, []⟩)) =
      some (st', Except.ok ())
    rw [if_neg (by omega), h1]
  · intro ch hch
    rcases h4 ch hch with h | h
    · simp at h
    · exact h

/-- C1: ingesting a 9-token prompt at capacity 4 performs exactly two
flushes — tokens 1–4 at positions 0–3 and tokens 5–8 at positions 4–7 —
and leaves token 9 buffered at position 8 with `n_cur = 9`; in general a
successful reset only ever flushed full batches of exactly `C` entries and
always leaves the final token in the buffer. -/
theorem claim_c1_flush_schedule :
    reset_batch_with_prompt 4 true
        (Except.ok [10, 11, 12, 13, 14, 15, 16, 17, 18]) =
      some ((⟨[(18, 8)], 9,
        [[(10, 0), (11, 1), (12, 2), (13, 3)],
         [(14, 4), (15, 5), (16, 6), (17, 7)]]⟩ : CtxState), Except.ok ()) ∧
    (∀ (C : Nat) (tokens : List Nat) (st : CtxState), 1 ≤ C → tokens ≠ [] →
      reset_batch_with_prompt C true (Except.ok tokens) = some (st, Except.ok ()) →
      (∀ ch ∈ st.flushed, ch.length = C) ∧ st.batch ≠ []) := by
  constructor
  · rfl
  · intro C tokens st hC hne heq
    obtain ⟨st', h1, _, _, h4, h5⟩ := reset_ok C tokens hC hne
    rw [heq] at h1
    have hst : st = st' := congrArg Prod.fst (Option.some.inj h1)
    rw [hst]
    exact ⟨h4, h5⟩

/-- C1 witness: the general part applied to the concrete 9-token, C = 4
ingestion. -/
theorem claim_c1_witness :
    (∀ ch ∈ (⟨[(18, 8)], 9,
        [[(10, 0), (11, 1), (12, 2), (13, 3)],
         [(14, 4), (15, 5), (16, 6), (17, 7)]]⟩ : CtxState).flushed,
      ch.length = 4) ∧
    (⟨[(18, 8)], 9,
        [[(10, 0), (11, 1), (12, 2), (13, 3)],
         [(14, 4), (15, 5), (16, 6), (17, 7)]]⟩ : CtxState).batch ≠ [] :=
  claim_c1_flush_schedule.2 4 [10, 11, 12, 13, 14, 15, 16, 17, 18]
    ⟨[(18, 8)], 9,
      [[(10, 0), (11, 1), (12, 2), (13, 3)],
       [(14, 4), (15, 5), (16, 6), (17, 7)]]⟩
    (by decide) (by decide) (by rfl)

/-- C7: after a successful reset, `n_cur` equals the number of ingested
tokens, and the registered entries (flushed plus buffered, in order) carry
the consecutive positions 0, 1, …; each successful `take_a_token` adds
exactly one entry at position `n_cur` and increments `n_cur` by one. -/
theorem claim_c7_position_invariant :
    (∀ (C : Nat) (tokens : List Nat), 1 ≤ C → tokens ≠ [] →
      ∃ st, reset_batch_with_prompt C true (Except.ok tokens) = some (st, Except.ok ()) ∧
        st.n_cur = tokens.length ∧
        st.flushed.flatten ++ st.batch = posZip 0 tokens) ∧
    (∀ (C : Nat) (decodeOk : Bool) (sampled eos : Nat) (st st' : CtxState)
        (r : Option Nat),
      take_a_token C decodeOk sampled eos st = (st', Except.ok r) →
      st'.n_cur = st.n_cur + 1 ∧ st'.batch = [(sampled, st.n_cur)]) := by
  constructor
  · intro C tokens hC hne
    obtain ⟨st, h1, h2, h3, _, _⟩ := reset_ok C tokens hC hne
    exact ⟨st, h1, h2, h3⟩
  · intro C decodeOk sampled eos st st' r h
    cases decodeOk with
    | false =>
      unfold take_a_token at h
      rw [show ctxDecode false st = (st, false) from rfl] at h
      exact absurd (congrArg Prod.snd h) (by simp)
    | true =>
      unfold take_a_token at h
      rw [ctxDecode_true] at h
      dsimp only at h
      by_cases hC : C ≤ 0
      · rw [batchAdd, if_pos (by simpa using hC)] at h
        exact absurd (congrArg Prod.snd h) (by simp)
      · rw [batchAdd_lt sampled (by show 0 < C; omega)] at h
        dsimp only at h
        by_cases he : sampled = eos
        · rw [if_pos he] at h
          have h1 := congrArg Prod.fst h
          dsimp only at h1
          rw [← h1]
          exact ⟨rfl, by simp⟩
        · rw [if_neg he] at h
          have h1 := congrArg Prod.fst h
          dsimp only at h1
          rw [← h1]
          exact ⟨rfl, by simp⟩

/-- C7 witness: the reset part on a 2-token prompt at capacity 2, and the
step part on a concrete mid-generation state. -/
theorem claim_c7_witness :
    (∃ st, reset_batch_with_prompt 2 true (Except.ok [5, 6]) =
        some (st, Except.ok ()) ∧
      st.n_cur = [5, 6].length ∧
      st.flushed.flatten ++ st.batch = posZip 0 [5, 6]) ∧
    ((⟨[(9, 1)], 2, [[(1, 0)]]⟩ : CtxState).n_cur =
        (⟨[(1, 0)], 1, []⟩ : CtxState).n_cur + 1 ∧
      (⟨[(9, 1)], 2, [[(1, 0)]]⟩ : CtxState).batch =
        [(9, (⟨[(1, 0)], 1, []⟩ : CtxState).n_cur)]) :=
  ⟨claim_c7_position_invariant.1 2 [5, 6] (by decide) (by decide),
    claim_c7_position_invariant.2 4 true 9 0 ⟨[(1, 0)], 1, []⟩
      ⟨[(9, 1)], 2, [[(1, 0)]]⟩ (some 9) (by rfl)⟩

/-- C9: `reset_batch_with_prompt` panics (usize underflow computing
`tokens.len() - 1`) exactly when the tokenizer succeeds with an empty
token list; for a non-empty token list (and a healthy backend) the run
completes, so backend errors are the only failure mode. -/
theorem claim_c9_empty_tokens_panic :
    (∀ (C : Nat) (decodeOk : Bool) (tokensRes : Except String (List Nat)),
      reset_batch_with_prompt C decodeOk tokensRes = none ↔
        tokensRes = Except.ok []) ∧
    (∀ (C : Nat) (tokens : List Nat), 1 ≤ C → tokens ≠ [] →
      ∃ st, reset_batch_with_prompt C true (Except.ok tokens) =
        some (st, Except.ok ())) := by
  constructor
  · intro C decodeOk tokensRes
    cases tokensRes with
    | error e => simp [reset_batch_with_prompt]
    | ok tokens =>
      by_cases h : tokens.length = 0
      · have ht : tokens = [] := List.length_eq_zero.mp h
        subst ht
        simp [reset_batch_with_prompt]
      · constructor
        · intro hc
          exact absurd hc (by simp [reset_batch_with_prompt, h])
        · intro hc
          exact absurd (List.length_eq_zero.mpr (Except.ok.inj hc)) h
  · intro C tokens hC hne
    obtain ⟨st, h1, _, _, _, _⟩ := reset_ok C tokens hC hne
    exact ⟨st, h1⟩

/-- C9 witness: the panic case on the empty token list and the success
case on a non-empty one. -/
theorem claim_c9_witness :
    (reset_batch_with_prompt 4 true (Except.ok []) = none ↔
      (Except.ok [] : Except String (List Nat)) = Except.ok []) ∧
    ∃ st, reset_batch_with_prompt 4 true (Except.ok [1, 2, 3]) =
      some (st, Except.ok ()) :=
  ⟨claim_c9_empty_tokens_panic.1 4 true (Except.ok []),
    claim_c9_empty_tokens_panic.2 4 [1, 2, 3] (by decide) (by decide)⟩

/-- C3 counterexample: a forward-pass (decode) failure at the start of
`take_a_token` returns the error with the batch buffer still holding its
previous entry — it is NOT cleared before control returns. -/
theorem claim_c3_counterexample :
    (take_a_token 4 false 5 0 (⟨[(7, 0)], 1, []⟩ : CtxState)).2 =
      Except.error "decode" ∧
    (take_a_token 4 false 5 0 (⟨[(7, 0)], 1, []⟩ : CtxState)).1.batch = [(7, 0)] ∧
    (take_a_token 4 false 5 0 (⟨[(7, 0)], 1, []⟩ : CtxState)).1.batch ≠ [] := by
  exact ⟨rfl, rfl, by decide⟩

/-- C3 (amended): every backend failure in `take_a_token` propagates
immediately; on a batch-add failure the buffer has just been cleared (it
is empty on return), but on a decode failure the session state — including
the non-empty batch buffer — is returned unchanged, and only the next
reset clears it. -/
theorem claim_c3_error_propagation (C : Nat) (decodeOk : Bool) (sampled eos : Nat)
    (st st' : CtxState) (e : String)
    (h : take_a_token C decodeOk sampled eos st = (st', Except.error e)) :
    (e = "decode" ∧ st' = st) ∨ (e = "add" ∧ st'.batch = []) := by
  cases decodeOk with
  | false =>
    unfold take_a_token at h
    rw [show ctxDecode false st = (st, false) from rfl] at h
    dsimp only at h
    have h1 := congrArg Prod.fst h
    have h2 := congrArg Prod.snd h
    dsimp only at h1 h2
    exact Or.inl ⟨(Except.error.inj h2).symm, h1.symm⟩
  | true =>
    unfold take_a_token at h
    rw [ctxDecode_true] at h
    dsimp only at h
    by_cases hC : C ≤ 0
    · rw [batchAdd, if_pos (by simpa using hC)] at h
      dsimp only at h
      have h1 := congrArg Prod.fst h
      have h2 := congrArg Prod.snd h
      dsimp only at h1 h2
      refine Or.inr ⟨(Except.error.inj h2).symm, ?_⟩
      rw [← h1]
    · rw [batchAdd_lt sampled (by show 0 < C; omega)] at h
      dsimp only at h
      by_cases he : sampled = eos
      · rw [if_pos he] at h
        exact absurd (congrArg Prod.snd h) (by simp)
      · rw [if_neg he] at h
        exact absurd (congrArg Prod.snd h) (by simp)

/-- C3 witness: the amended theorem at the decode-failure input. -/
theorem claim_c3_witness :
    (("decode" : String) = "decode" ∧
        (⟨[(7, 0)], 1, []⟩ : CtxState) = (⟨[(7, 0)], 1, []⟩ : CtxState)) ∨
      (("decode" : String) = "add" ∧
        (⟨[(7, 0)], 1, []⟩ : CtxState).batch = []) :=
  claim_c3_error_propagation 4 false 5 0 ⟨[(7, 0)], 1, []⟩ ⟨[(7, 0)], 1, []⟩
    "decode" (by rfl)

/-- C8: a generation started via `chat` with `MirostatV2 tau eta` carries
`mu = tau * 2` in the returned stream before any token is sampled; with
`tau = 4` the concrete run starts at `mu = 8`. -/
theorem claim_c8_mirostat_mu :
    (∀ (C : Nat) (decodeOk : Bool) (tokensRes : Except String (List Nat))
        (tau eta : ℚ) (st : CtxState) (s : LlamaModelChatStream),
      chat C decodeOk tokensRes (SimpleOption.MirostatV2 tau eta) =
          some (st, Except.ok s) →
        s.mu = tau * 2) ∧
    (∃ st s, chat 1 true (Except.ok [3]) (SimpleOption.MirostatV2 4 1) =
        some (st, Except.ok s) ∧ s.mu = 8) := by
  constructor
  · intro C decodeOk tokensRes tau eta st s h
    unfold chat at h
    cases hr : reset_batch_with_prompt C decodeOk tokensRes with
    | none =>
      rw [hr] at h
      exact absurd h (by simp)
    | some p =>
      obtain ⟨st0, r⟩ := p
      rw [hr] at h
      cases r with
      | error e => simp at h
      | ok u =>
        dsimp only at h
        have h3 := congrArg Prod.snd (Option.some.inj h)
        dsimp only at h3
        have h4 := Except.ok.inj h3
        rw [← h4]
  · exact ⟨⟨[(3, 0)], 1, []⟩, ⟨SimpleOption.MirostatV2 4 1, 4 * 2⟩, by rfl,
      by norm_num⟩

/-- C8 witness: the general part at the concrete `tau = 4` run. -/
theorem claim_c8_witness :
    (⟨SimpleOption.MirostatV2 4 1, 4 * 2⟩ : LlamaModelChatStream).mu = (4 : ℚ) * 2 :=
  claim_c8_mirostat_mu.1 1 true (Except.ok [3]) 4 1 ⟨[(3, 0)], 1, []⟩
    ⟨SimpleOption.MirostatV2 4 1, 4 * 2⟩ (by rfl)

end LlmWorld
